import Mathlib

/-!
# Verification of the poly-cli incremental build and asset-fingerprinting design

Shallow embedding of the relevant parts of the `poly-cli` sources:

* `src/asset_hasher.rs` — content-addressed asset fingerprinting
  (`HashedAsset::uri_with_hash`, `path_with_hash`, `short_hash`,
  `AssetHasher::update_uris_in_file(s)`, `rename_asset(s)`, `hash_asset`,
  `get_dist_uri`, `has_nohash`);
* `src/build.rs` — the backlog-coalescing scheduler (`Builder::run`, `build`,
  the worker thread, `BuildType::from_changes`, `run_script`);
* `src/watch.rs` — event classification (`classify_file`, `on_event`,
  `filepath_from_event`);
* `src/main.rs` — the `Build --hash-assets` branch (two-phase fingerprinting).

Strings are modelled as `List Char` (`Str`), file-system paths as lists of
path components (`List Str`), and the file system / external processes as
explicit data threaded through the functions.
-/

set_option maxRecDepth 10000

namespace Poly

/-- Characters of a Rust `String`/`&str`. -/
abbrev Str := List Char

/-- A file-system path, as its list of components (Rust `PathBuf`). -/
abbrev Path := List Str

/-- Rust `str::starts_with` (pattern as first argument). -/
def isPrefixB : Str → Str → Bool
  | [], _ => true
  | _ :: _, [] => false
  | p :: ps, c :: cs => p = c && isPrefixB ps cs

/-- Rust `str::contains` for a literal pattern: some suffix starts with `pat`. -/
def containsSub (s pat : Str) : Bool :=
  isPrefixB pat s ||
    match s with
    | [] => false
    | _ :: t => containsSub t pat

/-- Worker for `replaceAll`, with the pattern known non-empty.  The fuel
argument (at least the length of the string) makes the recursion
structural; each step consumes at least one character. -/
def replaceAllGo (p : Char) (ps rep : Str) : Nat → Str → Str
  | _, [] => []
  | 0, s => s
  | fuel + 1, c :: rest =>
    if isPrefixB (p :: ps) (c :: rest) then
      rep ++ replaceAllGo p ps rep fuel (rest.drop ps.length)
    else
      c :: replaceAllGo p ps rep fuel rest

/-- Rust `str::replace`: replace every (leftmost-first, non-overlapping)
occurrence of `pat` by `rep`.  All patterns the program uses (asset URIs,
which start with `/`) are non-empty; an empty pattern replaces nothing. -/
def replaceAll (pat rep s : Str) : Str :=
  match pat with
  | [] => s
  | p :: ps => replaceAllGo p ps rep s.length s

/-- Split a string at its last `.`: returns `(before, some after)` when the
string is `before ++ "." ++ after` with `after` dot-free, and `(s, none)`
when `s` has no dot.  This is the structure that Rust's
`str::rfind('.')` exposes in `uri_with_hash`. -/
def splitLastDot : Str → Str × Option Str
  | [] => ([], none)
  | c :: cs =>
    match splitLastDot cs with
    | (b, some a) => (c :: b, some a)
    | (_, none) => if c = '.' then ([], some cs) else (c :: cs, none)

/-- `s` contains no `'.'` character. -/
def noDot (s : Str) : Bool := s.all (· ≠ '.')

/-- One hex digit, lowercase (`0..15`). -/
def hexDigit (n : Nat) : Char :=
  if n < 10 then Char.ofNat ('0'.toNat + n) else Char.ofNat ('a'.toNat + (n - 10))

/-- `data_encoding::HEXLOWER.encode`: two lowercase hex digits per byte,
high nibble first. -/
def hexLower (bytes : List Nat) : Str :=
  bytes.flatMap (fun b => [hexDigit (b / 16), hexDigit (b % 16)])

/-- Lowercase hex digit predicate. -/
def isLowerHexDigit (c : Char) : Bool :=
  ('0' ≤ c && c ≤ '9') || ('a' ≤ c && c ≤ 'f')

/-- `asset_hasher::Asset`: a dist file's public URI together with its
physical path. -/
structure Asset where
  uri : Str
  path : Path
deriving DecidableEq

/-- `asset_hasher::HashedAsset`: an asset plus the lowercase-hex content
digest. -/
structure HashedAsset where
  asset : Asset
  hash : Str
deriving DecidableEq

/-- `AssetHasher::hash_asset`: pair the asset with the lowercase hex encoding
of its content digest.  The digest itself (`sha2::Sha256`, an external
collaborator) is passed in as the list of its bytes. -/
def hashAsset (digest : List Nat) (a : Asset) : HashedAsset :=
  { asset := a, hash := hexLower digest }

/-- `HashedAsset::short_hash`: the first 7 characters of the hex digest. -/
def shortHash (h : HashedAsset) : Str := h.hash.take 7

/-- `HashedAsset::uri_with_hash`: insert `"." ++ short_hash` immediately
before the last `.` of the URI (at the end when the URI has no dot). -/
def uriWithHash (h : HashedAsset) : Str :=
  match splitLastDot h.asset.uri with
  | (b, some a) => b ++ '.' :: shortHash h ++ '.' :: a
  | (_, none) => h.asset.uri ++ '.' :: shortHash h

/-- Rust `Path::extension` on a file name: the part after the last dot,
unless there is no dot or the only dot is the leading character. -/
def rustExt (name : Str) : Option Str :=
  match splitLastDot name with
  | (b, some a) => if b = [] then none else some a
  | (_, none) => none

/-- Rust `Path::file_stem` on a file name. -/
def rustStem (name : Str) : Str :=
  match splitLastDot name with
  | (b, some _) => if b = [] then name else b
  | (_, none) => name

/-- Rust `Path::with_extension` on a file name, for a non-empty new
extension: `file_stem ++ "." ++ ext`. -/
def withExtension (name ext : Str) : Str :=
  rustStem name ++ '.' :: ext

/-- `HashedAsset::path_with_hash`: `path.with_extension(new_ext)` where
`new_ext` is `short_hash ++ "." ++ old_ext` when the file name has an
extension and `short_hash` otherwise. -/
def pathWithHash (h : HashedAsset) : Path :=
  match h.asset.path.getLast? with
  | none => h.asset.path
  | some f =>
    let newExt :=
      match rustExt f with
      | some oldExt => shortHash h ++ '.' :: oldExt
      | none => shortHash h
    h.asset.path.dropLast ++ [withExtension f newExt]

/-- Join path components with `/` (Unix display of a relative `PathBuf`). -/
def joinSlash : List Str → Str
  | [] => []
  | [c] => c
  | c :: rest => c ++ '/' :: joinSlash rest

/-- Every component followed by a `/` — the shape of a `joinSlash` prefix. -/
def joinSlashPre : List Str → Str
  | [] => []
  | c :: rest => c ++ '/' :: joinSlashPre rest

/-- `AssetHasher::get_dist_uri`: strip the dist prefix and prepend `/`;
`strip_prefix` fails when `dist` is not a prefix of `path`. -/
def getDistUri (dist : Path) (path : Path) : Option Str :=
  if dist <+: path then some ('/' :: joinSlash (path.drop dist.length)) else none

/-- `asset_hasher::has_nohash`: the line contains the literal `nohash`. -/
def hasNohash (s : Str) : Bool := containsSub s ['n', 'o', 'h', 'a', 's', 'h']

/-- The per-line rewrite inside `AssetHasher::update_uris_in_file`: a line
carrying the no-hash marker is kept; otherwise fold over the assets,
replacing all occurrences of an asset's URI in the accumulated string
whenever the *original* line contains that URI. -/
def updateLine (assets : List HashedAsset) (line : Str) : Str :=
  if hasNohash line then line
  else
    assets.foldl
      (fun acc a =>
        if containsSub line a.asset.uri then
          replaceAll a.asset.uri (uriWithHash a) acc
        else acc)
      line

/-- Split a string on `'\n'`. -/
def splitNl : Str → List Str
  | [] => [[]]
  | c :: rest =>
    let parts := splitNl rest
    if c = '\n' then [] :: parts
    else
      match parts with
      | [] => [[c]]
      | p :: ps => (c :: p) :: ps

/-- Strip one trailing `'\r'` (Rust `str::lines` CRLF handling). -/
def stripCr (s : Str) : Str :=
  if s.getLast? = some '\r' then s.dropLast else s

/-- Rust `str::lines`: split on `'\n'`, dropping a final empty segment and a
trailing `'\r'` on each line. -/
def rustLines (s : Str) : List Str :=
  match s with
  | [] => []
  | _ =>
    let parts := splitNl s
    let parts := if parts.getLast? = some [] then parts.dropLast else parts
    parts.map stripCr

/-- The whole-file rewrite of `AssetHasher::update_uris_in_file`: map the
per-line rewrite over the lines and re-join with `'\n'`. -/
def updateFileContent (assets : List HashedAsset) (content : Str) : Str :=
  (((rustLines content).map (updateLine assets)).intersperse ['\n']).flatten

/-! ## File-system model

An explicit file system: file contents plus injectable I/O failures, keyed
by path.  `std::io::Error` is opaque to the program; it is modelled as a
bare error code. -/

/-- Abstract `std::io::Error`. -/
structure IoErr where
  code : Nat
deriving DecidableEq

/-- `asset_hasher::Error`. -/
inductive AHError where
  | ReadFile (e : IoErr)
  | OpenAssetFile (e : IoErr)
  | HashAssetFile (e : IoErr)
  | RenameAssetFile (e : IoErr)
  | WriteSourceFile (e : IoErr)
  | StripPathPrefix
deriving DecidableEq

/-- Association-list lookup keyed by path. -/
def alookup {α : Type} : List (Path × α) → Path → Option α
  | [], _ => none
  | (k, v) :: rest, p => if k = p then some v else alookup rest p

/-- Insert or overwrite a path's entry. -/
def ainsert {α : Type} : List (Path × α) → Path → α → List (Path × α)
  | [], p, v => [(p, v)]
  | (k, w) :: rest, p, v =>
    if k = p then (k, v) :: rest else (k, w) :: ainsert rest p v

/-- Remove a path's entry. -/
def aremove {α : Type} : List (Path × α) → Path → List (Path × α)
  | [], _ => []
  | (k, w) :: rest, p => if k = p then rest else (k, w) :: aremove rest p

/-- The file system: contents per path, plus the I/O operations that are
doomed to fail (with which error). -/
structure FS where
  contents : List (Path × Str)
  readErrs : List (Path × IoErr)
  writeErrs : List (Path × IoErr)
  renameErrs : List (Path × IoErr)
deriving DecidableEq

/-- `file_util::read` (content part). -/
def fsRead (fs : FS) (p : Path) : Except IoErr Str :=
  match alookup fs.readErrs p with
  | some e => .error e
  | none =>
    match alookup fs.contents p with
    | some c => .ok c
    | none => .error ⟨2⟩

/-- `file_util::write`: write-to-temporary-then-rename, modelled as an
atomic content update (or an injected failure leaving the file unchanged). -/
def fsWrite (fs : FS) (p : Path) (c : Str) : Except IoErr FS :=
  match alookup fs.writeErrs p with
  | some e => .error e
  | none => .ok { fs with contents := ainsert fs.contents p c }

/-- `std::fs::rename`: move the content from `src` to `dst` (or an injected
failure leaving the file system unchanged). -/
def fsRename (fs : FS) (src dst : Path) : Except IoErr FS :=
  match alookup fs.renameErrs src with
  | some e => .error e
  | none =>
    match alookup fs.contents src with
    | some c => .ok { fs with contents := ainsert (aremove fs.contents src) dst c }
    | none => .error ⟨2⟩

/-- `AssetHasher::update_uris_in_file`: read the source file, rewrite every
line, write it back.  On failure the file system is unchanged. -/
def updateUrisInFile (fs : FS) (p : Path) (assets : List HashedAsset) :
    Except AHError FS :=
  match fsRead fs p with
  | .error e => .error (.ReadFile e)
  | .ok content =>
    match fsWrite fs p (updateFileContent assets content) with
    | .error e => .error (.WriteSourceFile e)
    | .ok fs' => .ok fs'

/-- `AssetHasher::update_uris_in_files`: rewrite each collected source file
in order, stopping at the first failure (`?` inside the `for` loop).
Returns the file system as left behind together with the error, if any. -/
def updateUrisInFiles (fs : FS) (files : List Path)
    (assets : List HashedAsset) : FS × Option AHError :=
  match files with
  | [] => (fs, none)
  | p :: rest =>
    match updateUrisInFile fs p assets with
    | .ok fs' => updateUrisInFiles fs' rest assets
    | .error e => (fs, some e)

/-- `AssetHasher::rename_asset`: rename the physical file to its hashed
name. -/
def renameAsset (fs : FS) (a : HashedAsset) : Except IoErr FS :=
  fsRename fs a.asset.path (pathWithHash a)

/-- `AssetHasher::rename_assets`: `assets.iter().map(rename_asset).collect
::<Result<(), Error>>()` — `collect` into `Result` stops consuming the
iterator at the first `Err`, so later assets are not attempted. -/
def renameAssets (fs : FS) (assets : List HashedAsset) : FS × Option AHError :=
  match assets with
  | [] => (fs, none)
  | a :: rest =>
    match renameAsset fs a with
    | .ok fs' => renameAssets fs' rest
    | .error e => (fs, some (.RenameAssetFile e))

/-! ## The `Build --hash-assets` branch of `main.rs`

After the initial clean + build, the branch runs Phase A
(`update_uris_in_files`, `unwrap`) and then Phase B (full rebuild via
`rust_builder.run` and `web_builder.run`, both `expect`, then
`rename_assets`, `unwrap`, then the optional after-hash hook).  Any failure
panics, aborting the remaining steps. -/

/-- The externally observable steps of Phase B. -/
inductive MainAction where
  | rustBuild
  | webBuild
  | renameStep
  | afterHashHook
deriving DecidableEq

/-- The `hash_assets` branch: returns the final file system, the Phase-B
actions that were started, and whether the process panicked.  `rustOk` and
`webOk` are the outcomes of the two external rebuild collaborators. -/
def hashAssetsBranch (fs : FS) (files : List Path) (assets : List HashedAsset)
    (rustOk webOk hook : Bool) : FS × List MainAction × Bool :=
  match updateUrisInFiles fs files assets with
  | (fs1, some _) => (fs1, [], true)
  | (fs1, none) =>
    if rustOk = false then (fs1, [.rustBuild], true)
    else if webOk = false then (fs1, [.rustBuild, .webBuild], true)
    else
      match renameAssets fs1 assets with
      | (fs2, some _) => (fs2, [.rustBuild, .webBuild, .renameStep], true)
      | (fs2, none) =>
        (fs2,
          [.rustBuild, .webBuild, .renameStep] ++
            (if hook then [.afterHashHook] else []),
          false)

/-! ## Backlog-coalescing scheduler (`build.rs`)

`Builder::run`, `build` and the spawned worker thread are modelled as an
interleaving transition system: each thread holds a program counter
(`Phase`) positioned between the atomic shared-state accesses of the code
(one `Mutex`-protected backlog access or one atomic flag access per step),
and a scheduler step executes the next action of one chosen thread. -/

/-- `build::ChangeType`. -/
inductive ChangeType where
  | Rust
  | TypeScript
deriving DecidableEq

/-- `HashSet::insert` on the backlog (set semantics, order-insensitive
membership). -/
def hsInsert (c : ChangeType) (l : List ChangeType) : List ChangeType :=
  if c ∈ l then l else l ++ [c]

/-- `HashSet` equality: same elements. -/
def hsetEq (l₁ l₂ : List ChangeType) : Bool :=
  l₁.all (· ∈ l₂) && l₂.all (· ∈ l₁)

/-- `build::BuildType`. -/
inductive BuildType where
  | All
  | OnlyTypeScript
deriving DecidableEq

/-- `BuildType::from_changes`: `OnlyTypeScript` exactly when the drained
set equals `{TypeScript}`. -/
def fromChanges (changes : List ChangeType) : BuildType :=
  if hsetEq changes [ChangeType.TypeScript] then .OnlyTypeScript else .All

/-- A thread's program counter between the atomic actions of
`Builder::run` / `build` / the worker closure:

* `runInsert c`: about to lock the backlog and insert `c`
  (`Builder::run`, first statement);
* `runCheck`: about to load `is_running` and either return or call `build`;
* `buildLen`: about to lock the backlog and read its length (`build`);
* `buildMark`: length was positive, about to store `is_running = true`;
* `buildDrain`: about to lock and drain the backlog;
* `buildSpawn chs`: about to spawn the worker thread for the drained set;
* `script chs`: worker executing `run_script` — a pipeline is in flight;
* `unmark`: script finished (ok or reported failure), about to store
  `is_running = false`;
* after `unmark` the worker continues at `buildLen` (its trailing
  `build(config, state)` call);
* `tdone`: thread finished. -/
inductive Phase where
  | runInsert (c : ChangeType)
  | runCheck
  | buildLen
  | buildMark
  | buildDrain
  | buildSpawn (chs : List ChangeType)
  | script (chs : List ChangeType)
  | unmark
  | tdone
deriving DecidableEq

/-- Shared scheduler state plus the thread pool and a count of reported
build failures. -/
structure SState where
  isRunning : Bool
  backlog : List ChangeType
  threads : List Phase
  reports : Nat
deriving DecidableEq

/-- Execute the next atomic action of thread `i` (no-op for an absent or
finished thread).  `oc` is the outcome of `run_script` and is consulted
only at a `script` step: `false` means the build failed and
`handle_build_error` reports it. -/
def schedStep (s : SState) (i : Nat) (oc : Bool) : SState :=
  match s.threads.get? i with
  | none => s
  | some ph =>
    match ph with
    | .runInsert c =>
      { s with backlog := hsInsert c s.backlog, threads := s.threads.set i .runCheck }
    | .runCheck =>
      if s.isRunning then { s with threads := s.threads.set i .tdone }
      else { s with threads := s.threads.set i .buildLen }
    | .buildLen =>
      if s.backlog.length > 0 then { s with threads := s.threads.set i .buildMark }
      else { s with threads := s.threads.set i .tdone }
    | .buildMark =>
      { s with isRunning := true, threads := s.threads.set i .buildDrain }
    | .buildDrain =>
      { s with backlog := [], threads := s.threads.set i (.buildSpawn s.backlog) }
    | .buildSpawn chs =>
      { s with threads := s.threads.set i .tdone ++ [.script chs] }
    | .script _ =>
      { s with
        threads := s.threads.set i .unmark,
        reports := s.reports + (if oc then 0 else 1) }
    | .unmark =>
      { s with isRunning := false, threads := s.threads.set i .buildLen }
    | .tdone => s

/-- Run a whole schedule (list of thread-index / script-outcome choices). -/
def applySchedule (s : SState) (sched : List (Nat × Bool)) : SState :=
  sched.foldl (fun st c => schedStep st c.1 c.2) s

/-- Number of pipeline executions in flight (threads inside `run_script`). -/
def inFlight (s : SState) : Nat :=
  (s.threads.filter (fun ph => match ph with | .script _ => true | _ => false)).length

/-- The initial state for `N` concurrent `Builder::run` calls: idle flag,
empty backlog, one thread per enqueue about to insert its change. -/
def initState (pending : List ChangeType) : SState :=
  { isRunning := false, backlog := [], threads := pending.map .runInsert, reports := 0 }

/-! ## Pipeline stage selection (`run_script` in `build.rs`, with the
builders of `rust_builder.rs`, `typescript_builder.rs`,
`script_runner.rs`) -/

/-- `build::Env`. -/
inductive Env where
  | Dev
  | Release
deriving DecidableEq

/-- One external build stage, in the glossary's sense (compile, package,
bundle, hook). -/
inductive Stage where
  | cargoBuild
  | wasmPack
  | copyWasmToDist
  | npmInstall
  | npmRunBuild
  | postHook
deriving DecidableEq

/-- `RustBuilder::run` (dev and release run the same stage sequence, with
different flags): `cargo build`, then `wasm-pack build`, then copying the
wasm package into dist. -/
def rustBuilderStages (_ : Env) : List Stage :=
  [.cargoBuild, .wasmPack, .copyWasmToDist]

/-- `TypeScriptBuilder::run`: `npm install` then `npm run build-dev` in dev
mode; `build_release` is a no-op. -/
def tsBuilderStages : Env → List Stage
  | .Dev => [.npmInstall, .npmRunBuild]
  | .Release => []

/-- `run_script`: the ordered stage sequence of one pipeline invocation on
the success path — the `All` match arm runs the Rust builder then the
TypeScript builder, the `OnlyTypeScript` arm just the TypeScript builder,
and *both* arms are followed by the optional post-build hook. -/
def runScriptStages (bt : BuildType) (env : Env) (hasHook : Bool) : List Stage :=
  (match bt with
   | .All => rustBuilderStages env ++ tsBuilderStages env
   | .OnlyTypeScript => tsBuilderStages env) ++
  (if hasHook then [.postHook] else [])

/-- Is this stage part of the web-bundler build? -/
def isWebBundlerStage : Stage → Bool
  | .npmInstall => true
  | .npmRunBuild => true
  | _ => false

/-! ## Watch-event classification (`watch.rs`) -/

/-- `watch::Error`. -/
inductive WatchError where
  | Notify
  | IgnoredEvent
  | EventFilePath
  | RelativePath
  | IgnoredFileType (p : Path)
deriving DecidableEq

/-- The `notify` event kinds distinguished by `filepath_from_event`. -/
inductive EvKind where
  | createFile
  | createOther
  | modifyContent
  | modifyDataOther
  | modifyName
  | modifyOther
  | removeEv
  | otherEv
deriving DecidableEq

/-- A filesystem event: kind plus its path list. -/
structure Event where
  kind : EvKind
  paths : List Path

/-- `filepath_from_event`: the first path, for file-content event kinds;
everything else is an ignored event. -/
def filepathFromEvent (e : Event) : Except WatchError Path :=
  match e.kind with
  | .createFile | .modifyContent | .modifyName | .removeEv =>
    match e.paths.head? with
    | some p => .ok p
    | none => .error .EventFilePath
  | _ => .error .IgnoredEvent

/-- `Path::extension().unwrap_or_default()` on a relative path: the Rust
extension of the last component, or the empty string. -/
def extOfPath (p : Path) : Str :=
  match p.getLast? with
  | none => []
  | some f =>
    match rustExt f with
    | some e => e
    | none => []

/-- `classify_file`: ignored paths and unrecognized extensions yield an
`Err`; `rs` maps to `ChangeType::Rust` and `ts` to
`ChangeType::TypeScript`.  The gitignore matcher (external crate) is the
parameter `ign`. -/
def classifyFile (ign : Path → Bool) (p : Path) : Except WatchError ChangeType :=
  if ign p then .error (.IgnoredFileType p)
  else if extOfPath p = ['r', 's'] then .ok .Rust
  else if extOfPath p = ['t', 's'] then .ok .TypeScript
  else .error (.IgnoredFileType p)

/-- `on_event`: extract the path, make it relative to the project root,
classify, and hand the change to `Builder::run`. -/
def onEvent (ign : Path → Bool) (currentDir : Path) (e : Event) :
    Except WatchError ChangeType :=
  match filepathFromEvent e with
  | .error err => .error err
  | .ok p =>
    if currentDir <+: p then
      classifyFile ign (p.drop currentDir.length)
    else .error .RelativePath

/-- The `Builder::run` invocations `on_event` performs: one for a
classified change, none otherwise. -/
def onEventRuns (ign : Path → Bool) (currentDir : Path) (e : Event) :
    List ChangeType :=
  match onEvent ign currentDir e with
  | .ok c => [c]
  | .error _ => []

/-! ## Concrete fixtures for counterexamples and witnesses -/

/-- Fixture: dist asset `a.css`. -/
def assetA : HashedAsset :=
  ⟨⟨"/a.css".toList, ["a.css".toList]⟩, List.replicate 64 'a'⟩

/-- Fixture: dist asset `b.css`. -/
def assetB : HashedAsset :=
  ⟨⟨"/b.css".toList, ["b.css".toList]⟩, List.replicate 64 'b'⟩

/-- Fixture: dist asset `c.css`. -/
def assetC : HashedAsset :=
  ⟨⟨"/c.css".toList, ["c.css".toList]⟩, List.replicate 64 'c'⟩

/-- Fixture: three dist files, where renaming `b.css` is doomed to fail. -/
def fsThree : FS :=
  ⟨[(["a.css".toList], "A".toList), (["b.css".toList], "B".toList),
    (["c.css".toList], "C".toList)],
   [], [], [(["b.css".toList], ⟨13⟩)]⟩

/-- Fixture: source file path `m1.rs`. -/
def srcP1 : Path := ["m1.rs".toList]

/-- Fixture: source file path `m2.rs`. -/
def srcP2 : Path := ["m2.rs".toList]

/-- Fixture: a file system where reading `m1.rs` fails with os error 5. -/
def fsReadFail1 : FS :=
  ⟨[(srcP2, "code2".toList)], [(srcP1, ⟨5⟩)], [], []⟩

/-- Fixture: a file system where reading `m2.rs` fails with os error 5. -/
def fsReadFail2 : FS :=
  ⟨[(srcP1, "code1".toList), (srcP2, "code2".toList)], [(srcP2, ⟨5⟩)], [], []⟩

/-! ## Helper lemmas -/

lemma noDot_cons {c : Char} {s : Str} :
    noDot (c :: s) = true ↔ c ≠ '.' ∧ noDot s = true := by
  simp [noDot]

lemma splitLastDot_noDot {s : Str} (h : noDot s = true) :
    splitLastDot s = (s, none) := by
  induction s with
  | nil => rfl
  | cons c cs ih =>
    obtain ⟨hc, hcs⟩ := noDot_cons.mp h
    simp [splitLastDot, ih hcs, hc]

lemma splitLastDot_append {a : Str} (b : Str) (h : noDot a = true) :
    splitLastDot (b ++ '.' :: a) = (b, some a) := by
  induction b with
  | nil => simp [splitLastDot, splitLastDot_noDot h]
  | cons c b' ih => simp [splitLastDot, ih]

lemma splitLastDot_none {s b : Str} (h : splitLastDot s = (b, none)) :
    b = s ∧ noDot s = true := by
  induction s generalizing b with
  | nil =>
    simp [splitLastDot] at h
    subst h
    exact ⟨rfl, rfl⟩
  | cons c cs ih =>
    simp only [splitLastDot] at h
    rcases hs : splitLastDot cs with ⟨b', o⟩
    cases o with
    | some a => rw [hs] at h; simp at h
    | none =>
      rw [hs] at h
      by_cases hc : c = '.'
      · simp [hc] at h
      · simp [hc] at h
        obtain ⟨hb, _⟩ := ih hs
        subst hb
        exact ⟨h.symm, noDot_cons.mpr ⟨hc, (ih hs).2⟩⟩

lemma splitLastDot_some {s b a : Str} (h : splitLastDot s = (b, some a)) :
    s = b ++ '.' :: a ∧ noDot a = true := by
  induction s generalizing b a with
  | nil => simp [splitLastDot] at h
  | cons c cs ih =>
    simp only [splitLastDot] at h
    rcases hs : splitLastDot cs with ⟨b', o⟩
    cases o with
    | some a' =>
      rw [hs] at h
      simp at h
      obtain ⟨hb, ha⟩ := h
      obtain ⟨hcs, hnd⟩ := ih hs
      subst hb ha
      exact ⟨by simp [hcs], hnd⟩
    | none =>
      rw [hs] at h
      by_cases hc : c = '.'
      · simp [hc] at h
        obtain ⟨hb, ha⟩ := h
        subst hc hb ha
        exact ⟨rfl, (splitLastDot_none hs).2⟩
      · simp [hc] at h

lemma hexLower_length (bytes : List Nat) :
    (hexLower bytes).length = 2 * bytes.length := by
  induction bytes with
  | nil => rfl
  | cons b rest ih => simp [hexLower, List.flatMap_cons] at ih ⊢; omega

lemma isLowerHexDigit_hexDigit {n : Nat} (h : n < 16) :
    isLowerHexDigit (hexDigit n) = true := by
  interval_cases n <;> decide

lemma mem_hexLower_hex {c : Char} {bytes : List Nat}
    (hb : ∀ x ∈ bytes, x < 256) (hc : c ∈ hexLower bytes) :
    isLowerHexDigit c = true := by
  induction bytes with
  | nil => simp [hexLower] at hc
  | cons b rest ih =>
    simp only [hexLower, List.flatMap_cons, List.mem_append] at hc
    have hblt : b < 256 := hb b (by simp)
    rcases hc with hc | hc
    · have h16h : b / 16 < 16 := by omega
      have h16l : b % 16 < 16 := by omega
      simp only [List.mem_cons, List.mem_singleton] at hc
      rcases hc with rfl | rfl | h
      · exact isLowerHexDigit_hexDigit h16h
      · exact isLowerHexDigit_hexDigit h16l
      · simp at h
    · exact ih (fun x hx => hb x (by simp [hx])) hc

lemma isPrefixB_append_self (p t : Str) : isPrefixB p (p ++ t) = true := by
  induction p with
  | nil => rfl
  | cons c cs ih => simp [isPrefixB, ih]

lemma containsSub_middle (u p v : Str) : containsSub (u ++ p ++ v) p = true := by
  induction u with
  | nil =>
    rw [List.nil_append]
    have hpre := isPrefixB_append_self p v
    cases hpv : p ++ v with
    | nil =>
      have hp : p = [] := by
        cases p with
        | nil => rfl
        | cons a b => simp at hpv
      subst hp
      decide
    | cons c t =>
      rw [hpv] at hpre
      simp [containsSub, hpre]
  | cons c u' ih =>
    simp only [List.cons_append]
    rw [containsSub]
    simp only [Bool.or_eq_true]
    exact Or.inr ih

/-- No occurrence of `pat` starts strictly before position `n` of `s`. -/
def noOccBefore (s pat : Str) (n : Nat) : Prop :=
  ∀ i < n, isPrefixB pat (s.drop i) = false

instance (s pat : Str) (n : Nat) : Decidable (noOccBefore s pat n) := by
  unfold noOccBefore
  infer_instance

/-- The fuel of `replaceAllGo` is irrelevant once it covers the string. -/
lemma replaceAllGo_fuel (p : Char) (ps rep : Str) :
    ∀ f₁ f₂ s, s.length ≤ f₁ → s.length ≤ f₂ →
      replaceAllGo p ps rep f₁ s = replaceAllGo p ps rep f₂ s := by
  intro f₁
  induction f₁ with
  | zero =>
    intro f₂ s h1 _
    have hs : s = [] := by
      cases s with
      | nil => rfl
      | cons c t => simp at h1
    subst hs
    cases f₂ <;> rfl
  | succ f ih =>
    intro f₂ s h1 h2
    cases s with
    | nil => cases f₂ <;> rfl
    | cons c rest =>
      cases f₂ with
      | zero => simp at h2
      | succ f₂' =>
        simp only [replaceAllGo]
        by_cases hp : isPrefixB (p :: ps) (c :: rest) = true
        · rw [if_pos hp, if_pos hp]
          have hlen : (rest.drop ps.length).length ≤ f := by
            simp only [List.length_drop]
            simp only [List.length_cons] at h1
            omega
          have hlen2 : (rest.drop ps.length).length ≤ f₂' := by
            simp only [List.length_drop]
            simp only [List.length_cons] at h2
            omega
          rw [ih _ _ hlen hlen2]
        · rw [if_neg (by simpa using hp), if_neg (by simpa using hp)]
          have hlen : rest.length ≤ f := by
            simp only [List.length_cons] at h1; omega
          have hlen2 : rest.length ≤ f₂' := by
            simp only [List.length_cons] at h2; omega
          rw [ih _ _ hlen hlen2]

/-- The leftmost-first behaviour of `str::replace`: if no occurrence of the
(non-empty) pattern starts inside `u`, the occurrence sitting right after
`u` is replaced and replacement continues on the tail. -/
lemma replaceAll_split {pat : Str} (u v rep : Str) (hne : pat ≠ [])
    (hno : noOccBefore (u ++ pat ++ v) pat u.length) :
    replaceAll pat rep (u ++ pat ++ v) = u ++ rep ++ replaceAll pat rep v := by
  rcases pat with _ | ⟨p, ps⟩
  · exact absurd rfl hne
  clear hne
  induction u with
  | nil =>
    simp only [List.nil_append, List.cons_append, replaceAll, List.length_cons]
    rw [replaceAllGo]
    have hpre : isPrefixB (p :: ps) (p :: (ps ++ v)) = true := by
      simpa [isPrefixB] using isPrefixB_append_self ps v
    simp only [List.cons_append] at hpre
    rw [hpre]
    simp only [if_true, List.drop_left]
    rw [replaceAllGo_fuel p ps rep _ v.length v (by simp) (le_refl _)]
  | cons c u' ih =>
    have h0 : isPrefixB (p :: ps) ((c :: u' ++ (p :: ps) ++ v).drop 0) = false :=
      hno 0 (by simp)
    simp only [List.drop_zero] at h0
    have hno' : noOccBefore (u' ++ (p :: ps) ++ v) (p :: ps) u'.length := by
      intro i hi
      have := hno (i + 1) (by simp; omega)
      simpa using this
    simp only [List.cons_append, replaceAll, List.length_cons] at ih ⊢
    rw [replaceAllGo]
    simp only [List.cons_append] at h0
    rw [h0]
    simp only [List.length_append] at ih ⊢
    rw [ih hno']
    rfl

lemma joinSlash_concat (dirs : List Str) (y : Str) :
    joinSlash (dirs ++ [y]) = joinSlashPre dirs ++ y := by
  induction dirs with
  | nil => simp [joinSlash, joinSlashPre]
  | cons c dirs' ih =>
    cases dirs' with
    | nil => simp [joinSlash, joinSlashPre]
    | cons d ds =>
      simp only [List.cons_append, joinSlash, joinSlashPre, List.append_eq] at ih ⊢
      rw [ih]
      simp

lemma get?_lt_length {α : Type} {l : List α} {i : Nat} {a : α}
    (h : l.get? i = some a) : i < l.length := by
  by_contra hc
  push_neg at hc
  rw [List.get?_eq_getElem?, List.getElem?_eq_none (by omega)] at h
  exact Option.noConfusion h

lemma get?_set_self {α : Type} {l : List α} {i : Nat} (b : α)
    (h : i < l.length) : (l.set i b).get? i = some b := by
  rw [List.get?_eq_getElem?]
  exact List.getElem?_set_eq_of_lt b (by simpa using h)

/-! ## Claim theorems -/

/-- C4: `uri_with_hash` obtains the hashed URI by inserting `.` followed by
the 7-character digest prefix immediately before the final extension of the
URI (the segment after its last dot, e.g. `/app.css` becomes
`/app.<7 hex chars>.css`); a URI with no extension (no dot) has the prefix
appended as a new extension; the prefix is exactly 7 lowercase-hex
characters of the content digest; and recomputing over unchanged bytes
yields an identical hashed URI. -/
theorem uriWithHash_inserts_short_hash_before_last_extension
    (p q : Path) (b e u hash : Str) (d : List Nat) (a : Asset)
    (he : noDot e = true) (hu : noDot u = true)
    (hd : d.length = 32) (hb : ∀ x ∈ d, x < 256) :
    uriWithHash ⟨⟨b ++ '.' :: e, p⟩, hash⟩ = b ++ '.' :: hash.take 7 ++ '.' :: e
    ∧ uriWithHash ⟨⟨u, q⟩, hash⟩ = u ++ '.' :: hash.take 7
    ∧ (shortHash (hashAsset d a)).length = 7
    ∧ (∀ c ∈ shortHash (hashAsset d a), isLowerHexDigit c = true)
    ∧ (∀ d' a', d' = d → a' = a →
        uriWithHash (hashAsset d' a') = uriWithHash (hashAsset d a)) := by
  refine ⟨?_, ?_, ?_, ?_, ?_⟩
  · simp [uriWithHash, splitLastDot_append b he, shortHash]
  · simp [uriWithHash, splitLastDot_noDot hu, shortHash]
  · simp [shortHash, hashAsset, List.length_take, hexLower_length, hd]
  · intro c hc
    exact mem_hexLower_hex hb (List.mem_of_mem_take hc)
  · intro d' a' h1 h2
    subst h1 h2
    rfl

/-- Witness for C4 at the asset `/app.css` with an all-zero digest. -/
theorem uriWithHash_inserts_short_hash_witness :
    noDot ['c', 's', 's'] = true ∧
    uriWithHash ⟨⟨('/' :: 'a' :: 'p' :: 'p' :: []) ++ '.' :: ['c', 's', 's'], []⟩,
        List.replicate 64 'a'⟩ =
      ('/' :: 'a' :: 'p' :: 'p' :: []) ++ '.' :: (List.replicate 64 'a').take 7
        ++ '.' :: ['c', 's', 's'] := by
  have h := uriWithHash_inserts_short_hash_before_last_extension
    [] [] ('/' :: 'a' :: 'p' :: 'p' :: []) ['c', 's', 's']
    ('/' :: 'a' :: 'p' :: 'p' :: []) (List.replicate 64 'a')
    (List.replicate 32 0) ⟨[], []⟩
    (by decide) (by decide) (by decide) (by decide)
  exact ⟨by decide, h.1⟩

/-- C10: every `HashedAsset` built by `hash_asset` stores the lowercase hex
encoding of the digest — 64 characters for the 32-byte SHA-256 output — so
`short_hash`'s slice `hash[..7]` is always in bounds (the length is at
least 7, never a panic) and consists of exactly 7 lowercase-hex
characters. -/
theorem hashAsset_hash_is_64_lowercase_hex
    (d : List Nat) (a : Asset) (hd : d.length = 32)
    (hb : ∀ x ∈ d, x < 256) :
    (hashAsset d a).hash.length = 64
    ∧ 7 ≤ (hashAsset d a).hash.length
    ∧ (shortHash (hashAsset d a)).length = 7
    ∧ ∀ c ∈ (hashAsset d a).hash, isLowerHexDigit c = true := by
  have hlen : (hashAsset d a).hash.length = 64 := by
    simp [hashAsset, hexLower_length, hd]
  refine ⟨hlen, by omega, ?_, ?_⟩
  · simp [shortHash, List.length_take, hlen]
  · intro c hc
    exact mem_hexLower_hex hb hc

/-- Witness for C10 at an all-zero 32-byte digest. -/
theorem hashAsset_hash_is_64_lowercase_hex_witness :
    (List.replicate 32 0).length = 32 ∧
    (hashAsset (List.replicate 32 0) ⟨[], []⟩).hash.length = 64 := by
  have h := hashAsset_hash_is_64_lowercase_hex (List.replicate 32 0) ⟨[], []⟩
    (by decide) (by decide)
  exact ⟨by decide, h.1⟩

/-- C1 counterexample: for the dist asset `v1.2/app` (a dotted directory
name, extensionless file) the rename succeeds, yet the renamed file's
derived URI differs from `uri_with_hash` — `uri_with_hash` inserts before
the dot of the *directory* (`/v1.aaaaaaa.2/app`) while `path_with_hash`
appends to the *file name* (`v1.2/app.aaaaaaa`) — so after a fully
successful Phase B no dist file's URI matches the URI written into the
sources. -/
theorem hashed_uri_resolution_counterexample :
    getDistUri [] ["v1.2".toList, "app".toList] = some ("/v1.2/app".toList)
    ∧ (renameAssets ⟨[(["v1.2".toList, "app".toList], "body".toList)], [], [], []⟩
        [⟨⟨"/v1.2/app".toList, ["v1.2".toList, "app".toList]⟩,
          List.replicate 64 'a'⟩]).2 = none
    ∧ getDistUri []
        (pathWithHash ⟨⟨"/v1.2/app".toList, ["v1.2".toList, "app".toList]⟩,
          List.replicate 64 'a'⟩)
        ≠ some (uriWithHash ⟨⟨"/v1.2/app".toList, ["v1.2".toList, "app".toList]⟩,
          List.replicate 64 'a'⟩)
    ∧ ∀ pr ∈ (renameAssets ⟨[(["v1.2".toList, "app".toList], "body".toList)],
          [], [], []⟩
        [⟨⟨"/v1.2/app".toList, ["v1.2".toList, "app".toList]⟩,
          List.replicate 64 'a'⟩]).1.contents,
        getDistUri [] pr.1
          ≠ some (uriWithHash ⟨⟨"/v1.2/app".toList, ["v1.2".toList, "app".toList]⟩,
            List.replicate 64 'a'⟩) := by
  decide

/-- C1 (amended): for every asset whose file name has an extension in
Rust's sense (its last dot not leading), or whose entire URI contains no
dot, the renamed file path produced by `path_with_hash` is exactly the
dist file whose derived public URI equals the URI produced by
`uri_with_hash`. -/
theorem hashed_uri_resolves_to_renamed_path
    (dist dirs : List Str) (f hash : Str)
    (hcond : rustExt f ≠ none ∨ noDot ('/' :: joinSlash (dirs ++ [f])) = true) :
    getDistUri dist
        (pathWithHash ⟨⟨'/' :: joinSlash (dirs ++ [f]), dist ++ dirs ++ [f]⟩, hash⟩)
      = some (uriWithHash
          ⟨⟨'/' :: joinSlash (dirs ++ [f]), dist ++ dirs ++ [f]⟩, hash⟩) := by
  have hlast : (dist ++ dirs ++ [f]).getLast? = some f :=
    List.getLast?_concat _
  have hdrop : (dist ++ dirs ++ [f]).dropLast = dist ++ dirs :=
    List.dropLast_concat
  have hgd : ∀ nn : Str, getDistUri dist (dist ++ dirs ++ [nn])
      = some ('/' :: (joinSlashPre dirs ++ nn)) := by
    intro nn
    rw [getDistUri.eq_def]
    rw [List.append_assoc]
    rw [if_pos (List.prefix_append dist (dirs ++ [nn]))]
    rw [List.drop_left, joinSlash_concat]
  rcases hcond with hext | hnd
  · rcases hs : splitLastDot f with ⟨bf, o⟩
    cases o with
    | none => exact absurd (by simp [rustExt, hs]) hext
    | some af =>
      by_cases hbf : bf = []
      · exact absurd (by simp [rustExt, hs, hbf]) hext
      obtain ⟨hf, hndaf⟩ := splitLastDot_some hs
      have hpwh : pathWithHash
          ⟨⟨'/' :: joinSlash (dirs ++ [f]), dist ++ dirs ++ [f]⟩, hash⟩
          = dist ++ dirs ++ [bf ++ '.' :: (hash.take 7 ++ '.' :: af)] := by
        simp only [pathWithHash, hlast, hdrop, shortHash, rustExt, rustStem,
          withExtension, hs, hbf, if_neg hbf]
        simp
      have huri : '/' :: joinSlash (dirs ++ [f])
          = (('/' :: joinSlashPre dirs) ++ bf) ++ '.' :: af := by
        rw [joinSlash_concat, hf]
        simp
      have hsplit2 : splitLastDot ('/' :: joinSlash (dirs ++ [f]))
          = (('/' :: joinSlashPre dirs) ++ bf, some af) := by
        rw [huri]
        exact splitLastDot_append _ hndaf
      have huwh : uriWithHash
          ⟨⟨'/' :: joinSlash (dirs ++ [f]), dist ++ dirs ++ [f]⟩, hash⟩
          = (('/' :: joinSlashPre dirs) ++ bf) ++ '.' :: hash.take 7 ++ '.' :: af := by
        simp [uriWithHash, hsplit2, shortHash]
      rw [hpwh, hgd, huwh]
      simp
  · have hndf : noDot f = true := by
      rw [joinSlash_concat] at hnd
      have h2 := (noDot_cons.mp hnd).2
      simp only [noDot, List.all_append, Bool.and_eq_true] at h2
      exact h2.2
    have hsf : splitLastDot f = (f, none) := splitLastDot_noDot hndf
    have hpwh : pathWithHash
        ⟨⟨'/' :: joinSlash (dirs ++ [f]), dist ++ dirs ++ [f]⟩, hash⟩
        = dist ++ dirs ++ [f ++ '.' :: hash.take 7] := by
      simp only [pathWithHash, hlast, hdrop, shortHash, rustExt, rustStem,
        withExtension, hsf]
    have huwh : uriWithHash
        ⟨⟨'/' :: joinSlash (dirs ++ [f]), dist ++ dirs ++ [f]⟩, hash⟩
        = ('/' :: joinSlash (dirs ++ [f])) ++ '.' :: hash.take 7 := by
      simp [uriWithHash, splitLastDot_noDot hnd, shortHash]
    rw [hpwh, hgd, huwh, joinSlash_concat]
    simp

/-- C6 counterexample: with assets `/x` and `/xy`, the line `/xy` contains
the second asset's URI, yet the sequential fold first rewrites the embedded
`/x`, producing `/x.aaaaaaay`; the occurrence of `/xy` is destroyed rather
than replaced by `/xy`'s hashed URI, so not every literal occurrence of
each asset's URI is replaced by that asset's hashed URI. -/
theorem line_rewrite_counterexample :
    hasNohash ("/xy".toList) = false
    ∧ containsSub ("/xy".toList) ("/xy".toList) = true
    ∧ updateLine
        [⟨⟨"/x".toList, []⟩, List.replicate 64 'a'⟩,
         ⟨⟨"/xy".toList, []⟩, List.replicate 64 'b'⟩]
        ("/xy".toList) = "/x.aaaaaaay".toList
    ∧ containsSub
        (updateLine
          [⟨⟨"/x".toList, []⟩, List.replicate 64 'a'⟩,
           ⟨⟨"/xy".toList, []⟩, List.replicate 64 'b'⟩] ("/xy".toList))
        (uriWithHash ⟨⟨"/xy".toList, []⟩, List.replicate 64 'b'⟩) = false
    ∧ containsSub
        (updateLine
          [⟨⟨"/x".toList, []⟩, List.replicate 64 'a'⟩,
           ⟨⟨"/xy".toList, []⟩, List.replicate 64 'b'⟩] ("/xy".toList))
        ("/xy".toList) = false := by
  decide

/-- C6 (amended): a line carrying the no-hash marker is emitted unchanged
even if it contains a matching asset URI; otherwise the line is rewritten
by folding over the assets in order, replacing in the accumulated string
all occurrences of each asset's URI whenever the original line contains
it — which, when a single asset's URI is involved (no interference from
other assets), replaces every literal occurrence of the original URI by
the hashed URI, leftmost first. -/
theorem nohash_kept_and_single_asset_uri_fully_replaced
    (assets : List HashedAsset) (a : HashedAsset) (line u v : Str)
    (hne : a.asset.uri ≠ [])
    (hnh : hasNohash (u ++ a.asset.uri ++ v) = false)
    (hno : noOccBefore (u ++ a.asset.uri ++ v) a.asset.uri u.length) :
    (hasNohash line = true → updateLine assets line = line)
    ∧ updateLine [a] (u ++ a.asset.uri ++ v)
        = u ++ uriWithHash a ++ replaceAll a.asset.uri (uriWithHash a) v := by
  constructor
  · intro h
    simp [updateLine, h]
  · have hc : containsSub (u ++ a.asset.uri ++ v) a.asset.uri = true :=
      containsSub_middle _ _ _
    simp only [updateLine, hnh, List.foldl_cons, List.foldl_nil, hc,
      Bool.false_eq_true, if_false, if_true]
    exact replaceAll_split u v _ hne hno

/-- Witness for the amended C6: asset `/x` in the line `src=/x end`, and
the no-hash line `keep nohash /x`. -/
theorem nohash_kept_and_single_asset_uri_fully_replaced_witness :
    hasNohash ("src=".toList ++ "/x".toList ++ " end".toList) = false
    ∧ ((hasNohash ("keep nohash /x".toList) = true →
        updateLine [⟨⟨"/x".toList, []⟩, List.replicate 64 'a'⟩]
          ("keep nohash /x".toList) = "keep nohash /x".toList)
      ∧ updateLine [⟨⟨"/x".toList, []⟩, List.replicate 64 'a'⟩]
          ("src=".toList ++ "/x".toList ++ " end".toList)
        = "src=".toList
            ++ uriWithHash ⟨⟨"/x".toList, []⟩, List.replicate 64 'a'⟩
            ++ replaceAll ("/x".toList)
                (uriWithHash ⟨⟨"/x".toList, []⟩, List.replicate 64 'a'⟩)
                (" end".toList)) := by
  refine ⟨by decide, ?_⟩
  exact nohash_kept_and_single_asset_uri_fully_replaced
    [⟨⟨"/x".toList, []⟩, List.replicate 64 'a'⟩]
    ⟨⟨"/x".toList, []⟩, List.replicate 64 'a'⟩
    ("keep nohash /x".toList) ("src=".toList) (" end".toList)
    (by decide) (by decide) (by decide)

/-- C5 counterexample: with three assets where the second's rename fails,
the first stays renamed (no rollback) and the failure is reported, but the
third asset is never renamed — `collect::<Result<(), Error>>` stops
consuming the iterator at the first `Err`, so renaming of the remaining
assets does not proceed. -/
theorem rename_assets_counterexample :
    (renameAssets fsThree [assetA, assetB, assetC]).2
        = some (.RenameAssetFile ⟨13⟩)
    ∧ alookup (renameAssets fsThree [assetA, assetB, assetC]).1.contents
        (pathWithHash assetA) = some ("A".toList)
    ∧ alookup (renameAssets fsThree [assetA, assetB, assetC]).1.contents
        (["a.css".toList]) = none
    ∧ alookup (renameAssets fsThree [assetA, assetB, assetC]).1.contents
        (["c.css".toList]) = some ("C".toList)
    ∧ alookup (renameAssets fsThree [assetA, assetB, assetC]).1.contents
        (pathWithHash assetC) = none := by
  decide

/-- C5 (amended): when a rename fails, assets renamed before it stay
renamed (the resulting file system is exactly the one after the successful
prefix — no rollback), the failing asset's error is reported as
`RenameAssetFile`, and the remaining assets are not attempted. -/
theorem rename_failure_keeps_earlier_renames_and_stops
    (fs fsD : FS) (done rest : List HashedAsset) (bad : HashedAsset)
    (e : IoErr)
    (hdone : renameAssets fs done = (fsD, none))
    (hbad : renameAsset fsD bad = .error e) :
    renameAssets fs (done ++ bad :: rest) = (fsD, some (.RenameAssetFile e)) := by
  induction done generalizing fs with
  | nil =>
    simp only [renameAssets] at hdone
    have hfs : fs = fsD := congrArg Prod.fst hdone
    subst hfs
    rw [renameAssets.eq_def]
    simp [hbad]
  | cons a done' ih =>
    simp only [renameAssets] at hdone ⊢
    cases heq : renameAsset fs a with
    | error e' =>
      rw [heq] at hdone
      have h2 : some (AHError.RenameAssetFile e') = none :=
        congrArg Prod.snd hdone
      exact Option.noConfusion h2
    | ok fs1 =>
      rw [heq] at hdone
      simp only [List.append_eq]
      exact ih fs1 hdone

/-- Witness for the amended C5 at the three-asset fixture. -/
theorem rename_failure_keeps_earlier_renames_witness :
    renameAssets fsThree ([assetA] ++ assetB :: [assetC])
      = ((renameAssets fsThree [assetA]).1, some (.RenameAssetFile ⟨13⟩)) :=
  rename_failure_keeps_earlier_renames_and_stops fsThree
    (renameAssets fsThree [assetA]).1 [assetA] [assetC] assetB ⟨13⟩ rfl rfl

/-- C7 counterexample: two runs that fail at *different* source files
(`m1.rs` in the first, `m2.rs` in the second) report exactly the same
error value `ReadFile(os error 5)` — the distinct error kind does not name
the failing file X. -/
theorem phase_a_error_does_not_name_file :
    (updateUrisInFiles fsReadFail1 [srcP1, srcP2] []).2
        = some (.ReadFile ⟨5⟩)
    ∧ (updateUrisInFiles fsReadFail2 [srcP1, srcP2] []).2
        = some (.ReadFile ⟨5⟩)
    ∧ (updateUrisInFiles fsReadFail1 [srcP1, srcP2] []).2
        = (updateUrisInFiles fsReadFail2 [srcP1, srcP2] []).2 := by
  decide

/-- C7 (amended): if Phase A rewriting fails on source file X, the files
rewritten before X remain rewritten (the resulting file system is exactly
the one after the successful prefix, untouched by X and the remaining
files), a distinct error kind identifying the failing operation
(`ReadFile` or `WriteSourceFile`) is reported, and Phase B — the rebuild
and the asset renames — is never entered. -/
theorem phase_a_failure_keeps_earlier_rewrites_and_skips_phase_b
    (fs fsD : FS) (done rest : List Path) (x : Path)
    (assets : List HashedAsset) (err : AHError) (rustOk webOk hook : Bool)
    (hdone : updateUrisInFiles fs done assets = (fsD, none))
    (hbad : updateUrisInFile fsD x assets = .error err) :
    updateUrisInFiles fs (done ++ x :: rest) assets = (fsD, some err)
    ∧ (∃ e, err = .ReadFile e ∨ err = .WriteSourceFile e)
    ∧ hashAssetsBranch fs (done ++ x :: rest) assets rustOk webOk hook
        = (fsD, [], true) := by
  have hmain : updateUrisInFiles fs (done ++ x :: rest) assets
      = (fsD, some err) := by
    induction done generalizing fs with
    | nil =>
      simp only [updateUrisInFiles] at hdone
      have hfs : fs = fsD := congrArg Prod.fst hdone
      subst hfs
      rw [updateUrisInFiles.eq_def]
      simp [hbad]
    | cons p done' ih =>
      simp only [updateUrisInFiles] at hdone ⊢
      cases heq : updateUrisInFile fs p assets with
      | error e' =>
        rw [heq] at hdone
        have h2 : some e' = none := congrArg Prod.snd hdone
        exact Option.noConfusion h2
      | ok fs1 =>
        rw [heq] at hdone
        simp only [List.append_eq]
        exact ih fs1 hdone
  refine ⟨hmain, ?_, ?_⟩
  · rw [updateUrisInFile.eq_def] at hbad
    split at hbad
    · injection hbad with h
      exact ⟨_, Or.inl h.symm⟩
    · split at hbad
      · injection hbad with h
        exact ⟨_, Or.inr h.symm⟩
      · exact Except.noConfusion hbad
  · rw [hashAssetsBranch.eq_def, hmain]

/-- C2: an interleaving of two concurrent `Builder::run` calls (one Rust,
one TypeScript change) in which both threads pass the backlog-length check
before either drains: both store `is_running`, both spawn worker threads,
and the reachable state has two `run_script` executions in flight (the
second with an empty drained set) — the single-flight guarantee the
`is_running` flag is meant to enforce is violated, because `build` never
re-checks the flag between the length check and the spawn. -/
theorem single_flight_violated_by_interleaving :
    inFlight (applySchedule (initState [ChangeType.Rust, ChangeType.TypeScript])
        [(0, true), (1, true), (0, true), (1, true), (0, true), (1, true),
         (0, true), (0, true), (0, true), (1, true), (1, true), (1, true)]) = 2
    ∧ ¬ inFlight (applySchedule (initState [ChangeType.Rust, ChangeType.TypeScript])
        [(0, true), (1, true), (0, true), (1, true), (0, true), (1, true),
         (0, true), (0, true), (0, true), (1, true), (1, true), (1, true)]) ≤ 1 := by
  decide

/-- C8: a failed `run_script` never stops the scheduler's drain loop: the
worker reports the failure (one more report than before), moves on to
store `is_running = false`, and re-checks the backlog — and when the
backlog is non-empty it proceeds toward draining and spawning the next
build.  The backlog itself is untouched by these worker steps. -/
theorem build_failure_keeps_scheduler_running
    (s : SState) (i : Nat) (chs : List ChangeType)
    (hi : s.threads.get? i = some (.script chs)) :
    (schedStep s i false).reports = s.reports + 1
    ∧ (schedStep s i false).threads.get? i = some .unmark
    ∧ (schedStep s i false).backlog = s.backlog
    ∧ (schedStep (schedStep s i false) i true).isRunning = false
    ∧ (schedStep (schedStep s i false) i true).threads.get? i = some .buildLen
    ∧ (schedStep (schedStep s i false) i true).backlog = s.backlog
    ∧ (s.backlog ≠ [] →
        (schedStep (schedStep (schedStep s i false) i true) i true).threads.get? i
          = some .buildMark) := by
  have hlt : i < s.threads.length := get?_lt_length hi
  have h1 : schedStep s i false
      = { s with threads := s.threads.set i .unmark, reports := s.reports + 1 } := by
    rw [schedStep.eq_def, hi]
    simp
  have hg1 : (schedStep s i false).threads.get? i = some .unmark := by
    rw [h1]
    exact get?_set_self _ hlt
  have hlt1 : i < (schedStep s i false).threads.length := get?_lt_length hg1
  have h2 : schedStep (schedStep s i false) i true
      = { schedStep s i false with
          isRunning := false,
          threads := (schedStep s i false).threads.set i .buildLen } := by
    rw [schedStep.eq_def, hg1]
  have hg2 : (schedStep (schedStep s i false) i true).threads.get? i
      = some .buildLen := by
    rw [h2]
    exact get?_set_self _ hlt1
  have hb2 : (schedStep (schedStep s i false) i true).backlog = s.backlog := by
    rw [h2, h1]
  refine ⟨by rw [h1], hg1, by rw [h1], by rw [h2], hg2, hb2, ?_⟩
  intro hne
  have hlt2 : i < (schedStep (schedStep s i false) i true).threads.length :=
    get?_lt_length hg2
  have hpos : (schedStep (schedStep s i false) i true).backlog.length > 0 := by
    rw [hb2]
    cases hbl : s.backlog with
    | nil => exact absurd hbl hne
    | cons c t => simp
  rw [schedStep.eq_def, hg2, if_pos hpos]
  exact get?_set_self _ hlt2

/-- Witness for C8 at a one-thread state whose build is failing. -/
theorem build_failure_keeps_scheduler_running_witness :
    ((⟨true, [ChangeType.Rust], [Phase.script []], 0⟩ : SState).threads.get? 0
        = some (Phase.script []))
    ∧ (schedStep ⟨true, [ChangeType.Rust], [Phase.script []], 0⟩ 0 false).reports
        = (0 : Nat) + 1
    ∧ (schedStep (schedStep ⟨true, [ChangeType.Rust], [Phase.script []], 0⟩
          0 false) 0 true).isRunning = false := by
  have h := build_failure_keeps_scheduler_running
    ⟨true, [ChangeType.Rust], [Phase.script []], 0⟩ 0 [] (by decide)
  exact ⟨by decide, h.1, h.2.2.2.1⟩

/-- C9: a filesystem event whose (project-relative) path has an extension
other than `rs`/`ts`, or whose path matches an ignore rule, is classified
as an `Err` (`IgnoredFileType`), not a `ChangeType`, and `on_event`
performs no `Builder::run` invocation for it. -/
theorem unrecognized_or_ignored_event_never_enqueued
    (ign : Path → Bool) (cur rel : Path) (e : Event)
    (hp : filepathFromEvent e = .ok (cur ++ rel))
    (hcond : (extOfPath rel ≠ ['r', 's'] ∧ extOfPath rel ≠ ['t', 's'])
      ∨ ign rel = true) :
    classifyFile ign rel = .error (.IgnoredFileType rel)
    ∧ onEventRuns ign cur e = [] := by
  have hcl : classifyFile ign rel = .error (.IgnoredFileType rel) := by
    by_cases hig : ign rel = true
    · simp [classifyFile, hig]
    · rcases hcond with ⟨h1, h2⟩ | h3
      · simp [classifyFile, hig, h1, h2]
      · exact absurd h3 hig
  have honv : onEvent ign cur e = .error (.IgnoredFileType rel) := by
    rw [onEvent.eq_def, hp]
    show (if cur <+: cur ++ rel then
        classifyFile ign ((cur ++ rel).drop cur.length)
      else .error .RelativePath) = .error (.IgnoredFileType rel)
    rw [if_pos (List.prefix_append cur rel), List.drop_left]
    exact hcl
  refine ⟨hcl, ?_⟩
  rw [onEventRuns.eq_def, honv]

/-- Witness for C9: a content-modify event for `img.png`. -/
theorem unrecognized_event_never_enqueued_witness :
    filepathFromEvent ⟨.modifyContent, [["img.png".toList]]⟩
        = .ok ([] ++ ["img.png".toList])
    ∧ classifyFile (fun _ => false) ["img.png".toList]
        = .error (.IgnoredFileType ["img.png".toList])
    ∧ onEventRuns (fun _ => false) [] ⟨.modifyContent, [["img.png".toList]]⟩
        = [] := by
  have h := unrecognized_or_ignored_event_never_enqueued
    (fun _ => false) [] ["img.png".toList] ⟨.modifyContent, [["img.png".toList]]⟩
    rfl (Or.inl (by decide))
  exact ⟨rfl, h.1, h.2⟩

/-- C3 counterexample: with a post-build hook configured, the change set
exactly `{TypeScript}` selects the `OnlyTypeScript` path, but that path
runs the hook after the web-bundler stages — `run_script` runs the
optional hook on *both* arms — so the pipeline does not run "only the
web-bundler stage". -/
theorem web_only_path_also_runs_hook :
    fromChanges [ChangeType.TypeScript] = .OnlyTypeScript
    ∧ runScriptStages .OnlyTypeScript .Dev true
        = [.npmInstall, .npmRunBuild, .postHook]
    ∧ (runScriptStages (fromChanges [ChangeType.TypeScript]) .Dev true).all
        isWebBundlerStage = false := by
  decide

/-- C3 (amended): for every non-empty drained change set, the pipeline
skips the native stages and runs just the web-bundler build if and only if
the set is exactly `{TypeScript}`; every other non-empty set runs the full
ordered sequence native compile → WebAssembly packaging (→ wasm copy) →
web bundler build; and the optional post-build hook runs at the end of
*both* paths. -/
theorem stage_selection_policy
    (changes : List ChangeType) (hook : Bool) (_hne : changes ≠ []) :
    (fromChanges changes = .OnlyTypeScript
      ↔ hsetEq changes [ChangeType.TypeScript] = true)
    ∧ runScriptStages (fromChanges changes) .Dev hook
        = (if hsetEq changes [ChangeType.TypeScript] = true then
            [Stage.npmInstall, Stage.npmRunBuild]
          else
            [Stage.cargoBuild, Stage.wasmPack, Stage.copyWasmToDist,
             Stage.npmInstall, Stage.npmRunBuild])
          ++ (if hook then [Stage.postHook] else []) := by
  by_cases h : hsetEq changes [ChangeType.TypeScript] = true
  · exact ⟨by simp [fromChanges, h],
      by simp [fromChanges, h, runScriptStages, tsBuilderStages]⟩
  · refine ⟨?_, ?_⟩
    · simp only [fromChanges, if_neg h]
      constructor
      · intro hco
        exact absurd hco (by simp)
      · intro hco
        exact absurd hco h
    · simp [fromChanges, h, runScriptStages, rustBuilderStages, tsBuilderStages]

/-- Witness for the amended C3 at the mixed set with a hook. -/
theorem stage_selection_policy_witness :
    ([ChangeType.Rust, ChangeType.TypeScript] : List ChangeType) ≠ []
    ∧ runScriptStages (fromChanges [ChangeType.Rust, ChangeType.TypeScript])
        .Dev true
      = [Stage.cargoBuild, Stage.wasmPack, Stage.copyWasmToDist,
         Stage.npmInstall, Stage.npmRunBuild, Stage.postHook] := by
  have h := stage_selection_policy [ChangeType.Rust, ChangeType.TypeScript]
    true (by decide)
  exact ⟨by decide, by rw [h.2]; decide⟩

/-- Witness for the amended C7: `m1.rs` rewrites, `m2.rs` fails to read. -/
theorem phase_a_failure_witness :
    updateUrisInFiles fsReadFail2 ([srcP1] ++ srcP2 :: []) []
        = ((updateUrisInFiles fsReadFail2 [srcP1] []).1, some (.ReadFile ⟨5⟩))
    ∧ (∃ e, AHError.ReadFile ⟨5⟩ = .ReadFile e
        ∨ AHError.ReadFile ⟨5⟩ = .WriteSourceFile e)
    ∧ hashAssetsBranch fsReadFail2 ([srcP1] ++ srcP2 :: []) [] true true true
        = ((updateUrisInFiles fsReadFail2 [srcP1] []).1, [], true) :=
  phase_a_failure_keeps_earlier_rewrites_and_skips_phase_b fsReadFail2
    (updateUrisInFiles fsReadFail2 [srcP1] []).1 [srcP1] [] srcP2 []
    (.ReadFile ⟨5⟩) true true true rfl rfl

/-- Witness for the amended C1 at asset `dist/styles/app.css`. -/
theorem hashed_uri_resolves_to_renamed_path_witness :
    rustExt ("app.css".toList) ≠ none ∧
    getDistUri ["dist".toList]
        (pathWithHash ⟨⟨'/' :: joinSlash (["styles".toList] ++ ["app.css".toList]),
          ["dist".toList] ++ ["styles".toList] ++ ["app.css".toList]⟩,
          List.replicate 64 'a'⟩)
      = some (uriWithHash
          ⟨⟨'/' :: joinSlash (["styles".toList] ++ ["app.css".toList]),
            ["dist".toList] ++ ["styles".toList] ++ ["app.css".toList]⟩,
            List.replicate 64 'a'⟩) := by
  refine ⟨by decide, ?_⟩
  exact hashed_uri_resolves_to_renamed_path ["dist".toList] ["styles".toList]
    ("app.css".toList) (List.replicate 64 'a') (Or.inl (by decide))

end Poly
